import Mathlib

/-!
Verification development for the nexusscan repository (Go).

The definitions below are shallow embeddings of the Go source:

* `pkg/database/client.go` — the DynamoDB-backed store operations
  (`StoreOpenPorts`, `GetOpenPorts`, `StoreScanResult`,
  `StoreFinalScanSummary`, `GetScanResults`, `DeleteIP`, `AddSchedule`,
  `UpdateScheduleStatus`, `UpdateSchedule`, `UpdateScheduleAfterScan`,
  `getScheduleInterval`).
* `cmd/processor/main.go` — the per-message body of the result
  processor's `HandleSQSEvent`.
* `cmd/scheduler/main.go` — `SplitIntoBatches` and the port-resolution
  and batching logic of `ScheduleScan`.
* `cmd/api/main.go` — the `previous_open` resolution of `startScan` and
  the `startEnrichment` endpoint.

Modelling conventions:

* Machine integers (Go `int`) are `Int`; none of the verified paths
  overflow 64 bits.
* Wall-clock timestamps produced by `time.Now().Format(time.RFC3339)`
  are opaque `String` values passed explicitly to each operation
  (RFC3339 strings of a common format compare lexicographically in the
  same order as chronologically, which is how the Go code compares
  them).  Schedule timestamps, which the Go code manipulates
  arithmetically through `time.Time`, are modelled as `Nat` seconds.
* DynamoDB `PutItem` is an upsert on the table's primary key; the
  `nexusscan-results` table is keyed by `(IPAddress, ScanTimestamp)`
  (see `template.yaml`), modelled by `putResult` below.
* Go materialises the merged open-port set through a `map[int]bool`
  whose iteration order is unspecified; only the set content of the
  stored list is defined behavior.  The embedding determinises the
  stored list to ascending order (`insertPort`), which represents
  exactly the same set.
-/

/-- Port mirrors `models.Port` (`pkg/models/ip.go`): a port number with its
state and measured latency in nanoseconds.  The optional `Service` field is
cleared by every store path and is omitted. -/
structure Port where
  number : Int
  state : String
  latency : Int
deriving DecidableEq, Repr

/-- ScanRow mirrors one item of the `nexusscan-results` DynamoDB table as
written by `StoreScanResult` / `StoreFinalScanSummary` and read back through
`models.ScanResult`.  The table's primary key is `(ipAddress, scanTimestamp)`. -/
structure ScanRow where
  ipAddress : String
  scanTimestamp : String
  scanId : String
  openPorts : List Port
  scanDuration : Int
  portsScanned : Int
  isFinalSummary : Bool
deriving DecidableEq, Repr

/-- BatchResult mirrors the `scanner.ScanResult` message consumed from the
results queue by the processor (`cmd/processor/main.go`). -/
structure BatchResult where
  ipAddress : String
  scanId : String
  openPorts : List Port
  scanDuration : Int
  portsScanned : Int
  batchId : Int
  totalBatches : Int
deriving DecidableEq, Repr

/-- EnrichmentRow mirrors one item of the `nexusscan-enrichment` table
(`EnrichmentResult` in `cmd/enricher/main.go`); only the key fields matter
for the cascade claims. -/
structure EnrichmentRow where
  ipAddress : String
  timestamp : String
  scanId : String
deriving DecidableEq, Repr

/-- Schedule mirrors `models.Schedule` (`pkg/models/ip.go`).  Time fields are
Unix seconds; `lastRun = none` models the empty string stored for a schedule
that has never run. -/
structure Schedule where
  scheduleId : String
  ipAddress : String
  scheduleType : String
  portSet : String
  enabled : Bool
  createdAt : Nat
  updatedAt : Nat
  lastRun : Option Nat
  nextRun : Nat
deriving DecidableEq, Repr

/-- insertPort inserts a port into an ascending duplicate-free list, keeping
it ascending and duplicate-free.  This is the determinisation of Go's
`map[int]bool` key set used by `StoreOpenPorts`. -/
def insertPort (x : Int) : List Int → List Int
  | [] => [x]
  | y :: ys => if x < y then x :: y :: ys else if x = y then y :: ys else y :: insertPort x ys

/-- mergeOpenPorts merges the existing stored ports with newly discovered
ones, collapsing duplicates, exactly as `StoreOpenPorts` does through its
`portsMap`; the result is determinised to ascending order. -/
def mergeOpenPorts (existing newPorts : List Int) : List Int :=
  (existing ++ newPorts).foldl (fun acc p => insertPort p acc) []

/-- sameResultKey tests equality of the `nexusscan-results` primary key
`(IPAddress, ScanTimestamp)`. -/
def sameResultKey (a b : ScanRow) : Prop :=
  a.ipAddress = b.ipAddress ∧ a.scanTimestamp = b.scanTimestamp

instance (a b : ScanRow) : Decidable (sameResultKey a b) := by
  unfold sameResultKey; infer_instance

/-- putResult is DynamoDB `PutItem` on the `nexusscan-results` table: it
overwrites the row with the same primary key when one exists and appends a
new row otherwise. -/
def putResult (rows : List ScanRow) (r : ScanRow) : List ScanRow :=
  if rows.any (fun x => decide (sameResultKey x r)) then
    rows.map (fun x => if sameResultKey x r then r else x)
  else
    rows ++ [r]

/-- DB is the persistent state touched by the verified operations: the five
DynamoDB tables of `template.yaml`.  An `openPorts` value of `none` models an
absent `nexusscan-open-ports` item. -/
structure DB where
  ips : String → Bool
  lastScanned : String → String
  schedules : List Schedule
  openPorts : String → Option (List Int)
  lastUpdated : String → String
  results : List ScanRow
  enrichment : List EnrichmentRow

/-- getOpenPorts embeds `Client.GetOpenPorts`: the stored list for the IP, or
the empty list when no item exists. -/
def getOpenPorts (db : DB) (ip : String) : List Int :=
  (db.openPorts ip).getD []

/-- storeOpenPorts embeds `Client.StoreOpenPorts`: read the existing ports,
merge the new ones in (set union, never replacement), and put the merged
item back together with its `LastUpdated` timestamp. -/
def storeOpenPorts (db : DB) (ip : String) (ports : List Int) (now : String) : DB :=
  let existingPorts := getOpenPorts db ip
  let mergedPorts := mergeOpenPorts existingPorts ports
  { db with
    openPorts := fun k => if k = ip then some mergedPorts else db.openPorts k,
    lastUpdated := fun k => if k = ip then now else db.lastUpdated k }

/-- storeScanResult embeds `Client.StoreScanResult`: put a per-batch row
keyed by the current timestamp (`IsFinalSummary` absent, read back as
false), then update the IP's `LastScanned`. -/
def storeScanResult (db : DB) (ip scanId : String) (openPorts : List Port)
    (scanDuration portsScanned : Int) (now : String) : DB :=
  let row : ScanRow :=
    { ipAddress := ip, scanTimestamp := now, scanId := scanId,
      openPorts := openPorts, scanDuration := scanDuration,
      portsScanned := portsScanned, isFinalSummary := false }
  { db with
    results := putResult db.results row,
    lastScanned := fun k => if k = ip then now else db.lastScanned k }

/-- storeFinalScanSummary embeds `Client.StoreFinalScanSummary`: every port
entry is simplified to `(number, "open", 1000000)` and the row is keyed by
the current timestamp with a trailing `"Z"` appended, flagged
`IsFinalSummary = true`. -/
def storeFinalScanSummary (db : DB) (ip scanId : String) (openPorts : List Port)
    (scanDuration portsScanned : Int) (now : String) : DB :=
  let simplifiedPorts := openPorts.map (fun p => Port.mk p.number "open" 1000000)
  let row : ScanRow :=
    { ipAddress := ip, scanTimestamp := now ++ "Z", scanId := scanId,
      openPorts := simplifiedPorts, scanDuration := scanDuration,
      portsScanned := portsScanned, isFinalSummary := true }
  { db with results := putResult db.results row }

/-- handleResultMessage embeds the per-message body of the processor's
`HandleSQSEvent` (`cmd/processor/main.go`): store the per-batch row, merge
the batch's open ports into the tracker when there are any, and on the last
batch (`batchId == totalBatches-1`) read the complete open-port set back and
store a final scan summary built from it with state `"open"` and 1 ms
latency.  `t1` is the wall clock of the per-batch writes, `t2` that of the
final-summary write. -/
def handleResultMessage (db : DB) (b : BatchResult) (t1 t2 : String) : DB :=
  let db1 := storeScanResult db b.ipAddress b.scanId b.openPorts b.scanDuration b.portsScanned t1
  let openPortNumbers := b.openPorts.map (fun p => p.number)
  let db2 := if 0 < openPortNumbers.length then storeOpenPorts db1 b.ipAddress openPortNumbers t1 else db1
  if b.batchId = b.totalBatches - 1 then
    let completeOpenPorts := getOpenPorts db2 b.ipAddress
    let fullOpenPorts := completeOpenPorts.map (fun n => Port.mk n "open" 1000000)
    storeFinalScanSummary db2 b.ipAddress b.scanId fullOpenPorts b.scanDuration b.portsScanned t2
  else db2

/-- openPortSet is the set content of the stored open-port list for an IP;
Go guarantees only this set (its list order comes from map iteration). -/
def openPortSet (db : DB) (ip : String) : Finset Int :=
  (getOpenPorts db ip).toFinset

/-- getScheduleInterval embeds the `getScheduleInterval` helper of
`pkg/database/client.go`, in seconds; unrecognised cadences fall back to the
daily interval. -/
def getScheduleInterval (scheduleType : String) : Nat :=
  if scheduleType = "hourly" then 3600
  else if scheduleType = "12hour" then 12 * 3600
  else if scheduleType = "daily" then 24 * 3600
  else if scheduleType = "weekly" then 7 * 24 * 3600
  else if scheduleType = "monthly" then 30 * 24 * 3600
  else 24 * 3600

/-- addSchedule embeds `Client.AddSchedule`: the freshly generated UUID is an
explicit argument, `LastRun` is stored empty and `NextRun` is
`now + interval(cadence)`. -/
def addSchedule (ip scheduleType portSet : String) (enabled : Bool)
    (scheduleId : String) (now : Nat) : Schedule :=
  { scheduleId := scheduleId, ipAddress := ip, scheduleType := scheduleType,
    portSet := portSet, enabled := enabled, createdAt := now, updatedAt := now,
    lastRun := none, nextRun := now + getScheduleInterval scheduleType }

/-- updateScheduleStatus embeds `Client.UpdateScheduleStatus`, whose update
expression is `SET Enabled = :enabled, UpdatedAt = :updatedAt` — nothing
else on the item changes. -/
def updateScheduleStatus (s : Schedule) (enabled : Bool) (now : Nat) : Schedule :=
  { s with enabled := enabled, updatedAt := now }

/-- updateSchedule embeds `Client.UpdateSchedule`, which rewrites the
cadence, port set and enabled flag and resets `NextRun` to
`now + interval(cadence)`. -/
def updateSchedule (s : Schedule) (scheduleType portSet : String) (enabled : Bool)
    (now : Nat) : Schedule :=
  { s with
    scheduleType := scheduleType,
    portSet := portSet,
    enabled := enabled,
    updatedAt := now,
    nextRun := now + getScheduleInterval scheduleType }

/-- updateScheduleAfterScan embeds `Client.UpdateScheduleAfterScan`:
`LastRun ← now`, `NextRun ← now + interval(cadence)`. -/
def updateScheduleAfterScan (s : Schedule) (scheduleType : String) (now : Nat) : Schedule :=
  { s with
    lastRun := some now,
    nextRun := now + getScheduleInterval scheduleType,
    updatedAt := now }

/-- deleteIP embeds `Client.DeleteIP` on the success path of the initial
`nexusscan-ips` delete: the cascade removes every schedule whose ID was
returned by the IP-index query (`DeleteIPSchedules`), the open-ports item,
and every `nexusscan-results` row of the IP.  No other table is touched. -/
def deleteIP (db : DB) (ip : String) : DB :=
  let scheduleIds := (db.schedules.filter (fun s => s.ipAddress = ip)).map (fun s => s.scheduleId)
  { db with
    ips := fun k => if k = ip then false else db.ips k,
    schedules := db.schedules.filter (fun s => ¬ s.scheduleId ∈ scheduleIds),
    openPorts := fun k => if k = ip then none else db.openPorts k,
    results := db.results.filter (fun r => ¬ r.ipAddress = ip) }

/-- schedulerResolvePreviousOpen embeds the `previous_open` branch of
`ScheduleScan` (`cmd/scheduler/main.go`): when the stored open-port list is
empty, a minimal set of common ports is scanned instead. -/
def schedulerResolvePreviousOpen (openPorts : List Int) : List Int :=
  if openPorts.length = 0 then [22, 80, 443, 3389] else openPorts

/-- startScanResolvePreviousOpen embeds the `previous_open` branch of the
API's `startScan` (`cmd/api/main.go`): a database error or an empty stored
list resolves to the default common ports, otherwise to the stored list. -/
def startScanResolvePreviousOpen (dbError : Bool) (openPorts : List Int) : List Int :=
  if dbError then [22, 80, 443, 3389]
  else if openPorts.length = 0 then [22, 80, 443, 3389]
  else openPorts

/-- chunkGo is the loop body of `SplitIntoBatches`: peel off `batchSize`-port
prefixes.  The fuel argument makes the recursion structural; fuel equal to
the list length suffices for any positive batch size. -/
def chunkGo (batchSize : Nat) : Nat → List Int → List (List Int)
  | 0, _ => []
  | _, [] => []
  | fuel + 1, l => l.take batchSize :: chunkGo batchSize fuel (l.drop batchSize)

/-- splitIntoBatches embeds `SplitIntoBatches` (`cmd/scheduler/main.go`):
batch sizes of zero or less fall back to 1000, then the port list is cut
into consecutive chunks in input order. -/
def splitIntoBatches (ports : List Int) (batchSize : Int) : List (List Int) :=
  let bs : Nat := if batchSize ≤ 0 then 1000 else batchSize.toNat
  chunkGo bs ports.length ports

/-- scheduleScanBatchSize embeds the batch-size choice of `ScheduleScan`:
1000 by default, 5000 for the `full_range` strategy. -/
def scheduleScanBatchSize (portStrategy : String) : Int :=
  if portStrategy = "full_range" then 5000 else 1000

/-- fullRangePorts is the default full-range port list built by
`ScheduleScan` when no explicit ranges are configured: `[1, …, 65535]`. -/
def fullRangePorts : List Int :=
  (List.range 65535).map (fun (i : Nat) => (i : Int) + 1)

/-- ScanTask carries the fields of `scanner.ScanRequest` relevant to
batching: the ports of one batch, its 0-based `batchId`, the common
`totalBatches` and the scan ID shared by all batches of the scan. -/
structure ScanTask where
  portsToScan : List Int
  batchId : Nat
  totalBatches : Nat
  scanId : String
deriving DecidableEq, Repr

/-- mkScanTasks is the task-submission loop of `ScheduleScan`: one task per
batch, in batch order, carrying the loop index as `batchId`. -/
def mkScanTasks (scanId : String) (total : Nat) : Nat → List (List Int) → List ScanTask
  | _, [] => []
  | i, batch :: rest =>
    { portsToScan := batch, batchId := i, totalBatches := total, scanId := scanId }
      :: mkScanTasks scanId total (i + 1) rest

/-- scheduleScanTasks composes the batching and dispatch of `ScheduleScan`
for an already-resolved port list. -/
def scheduleScanTasks (portsToScan : List Int) (portStrategy : String)
    (scanId : String) : List ScanTask :=
  let batches := splitIntoBatches portsToScan (scheduleScanBatchSize portStrategy)
  mkScanTasks scanId batches.length 0 batches

/-- EnricherRequest mirrors the payload sent to the enricher collaborator
(`EnricherRequest` in `cmd/enricher/main.go`). -/
structure EnricherRequest where
  ipAddress : String
  scanId : String
  openPorts : List Int
  immediateMode : Bool
deriving DecidableEq, Repr

/-- processorEnricherCalls records the Lambda invocations issued by the
processor's `HandleSQSEvent` while handling one batch result.  The handler
body in `cmd/processor/main.go` contains no Lambda client and performs no
invocation — its only effects are the database writes of
`handleResultMessage` — so this list is empty for every input, even though
`template.yaml` wires `ENRICHER_FUNCTION` and an invoke policy to the
processor. -/
def processorEnricherCalls (_db : DB) (_b : BatchResult) (_t1 _t2 : String) :
    List EnricherRequest :=
  []

/-- startEnrichment embeds the API's `startEnrichment` endpoint
(`cmd/api/main.go`): with no stored open ports it fails with an error
response; otherwise it invokes the enricher with the stored ports and
`immediateMode = true` (`genId` stands for the generated manual scan ID used
when none is supplied). -/
def startEnrichment (db : DB) (ip scanId genId : String) : Except String EnricherRequest :=
  let openPorts := getOpenPorts db ip
  if openPorts.length = 0 then
    Except.error "No open ports found for this IP"
  else
    Except.ok
      { ipAddress := ip, scanId := if scanId = "" then genId else scanId,
        openPorts := openPorts, immediateMode := true }

/-- selectSwap is the inner loop of the nested-swap sort used by
`GetScanResults`: with a fixed slot holding `x`, walk the remaining slots;
whenever the comparator orders the slot content above the current content
the two are swapped.  It returns the final content of the fixed slot
together with the remaining slots in their final order. -/
def selectSwap (swap : α → α → Bool) : α → List α → α × List α
  | x, [] => (x, [])
  | x, y :: ys =>
    if swap x y then
      let p := selectSwap swap y ys
      (p.1, x :: p.2)
    else
      let p := selectSwap swap x ys
      (p.1, y :: p.2)

theorem selectSwap_length (swap : α → α → Bool) :
    ∀ (x : α) (ys : List α), (selectSwap swap x ys).2.length = ys.length := by
  intro x ys
  induction ys generalizing x with
  | nil => rfl
  | cons y ys ih =>
    by_cases h : swap x y = true
    · simp [selectSwap, h, ih]
    · simp [selectSwap, h, ih]

/-- loopSort is the outer loop of the nested-swap sort of `GetScanResults`:
fix each position in turn and run `selectSwap` over the suffix. -/
def loopSort (swap : α → α → Bool) : List α → List α
  | [] => []
  | x :: xs =>
    let p := selectSwap swap x xs
    p.1 :: loopSort swap p.2
termination_by l => l.length
decreasing_by simp [selectSwap_length]

/-- upsertPort is one step of the port-deduplication map of
`GetScanResults`: a port with an already-seen number overwrites the stored
entry, a fresh number is appended. -/
def upsertPort (m : List Port) (p : Port) : List Port :=
  if m.any (fun q => decide (q.number = p.number)) then
    m.map (fun q => if q.number = p.number then p else q)
  else m ++ [p]

/-- dedupPortsByNumber is the `portMap` deduplication of `GetScanResults`:
later entries win for a repeated port number. -/
def dedupPortsByNumber (l : List Port) : List Port :=
  l.foldl upsertPort []

/-- sortPortsByNumber is the nested swap loop of `GetScanResults` that sorts
the deduplicated ports ascending by port number (swap when the earlier slot
has the larger number). -/
def sortPortsByNumber (l : List Port) : List Port :=
  loopSort (fun a b => decide (b.number < a.number)) l

/-- sortResultsDescByTimestamp is the final nested swap loop of
`GetScanResults`, sorting consolidated rows descending by `ScanTimestamp`
(swap when the earlier slot has the smaller timestamp). -/
def sortResultsDescByTimestamp (l : List ScanRow) : List ScanRow :=
  loopSort (fun a b => decide (a.scanTimestamp < b.scanTimestamp)) l

/-- emptyScanRow is the Go zero value of `models.ScanResult`, the starting
accumulator of the latest-batch search in `GetScanResults`. -/
def emptyScanRow : ScanRow :=
  { ipAddress := "", scanTimestamp := "", scanId := "", openPorts := [],
    scanDuration := 0, portsScanned := 0, isFinalSummary := false }

/-- latestOfGroup is the latest-batch search of `GetScanResults`: keep the
row with the (strictly) larger `ScanTimestamp`, starting from the zero
value. -/
def latestOfGroup (g : List ScanRow) : ScanRow :=
  g.foldl (fun acc r => if acc.scanTimestamp < r.scanTimestamp then r else acc) emptyScanRow

/-- consolidateGroup is the per-`scanId` consolidation of `GetScanResults`:
the first final summary in the group, if any, is returned as is; otherwise
the latest batch's row carries the deduplicated, number-sorted union of all
batches' open ports and the summed `portsScanned`. -/
def consolidateGroup (g : List ScanRow) : ScanRow :=
  match g.find? (fun r => r.isFinalSummary) with
  | some f => f
  | none =>
    let latestResult := latestOfGroup g
    let allOpenPorts := g.foldl (fun acc r => acc ++ r.openPorts) []
    let totalPortsScanned := g.foldl (fun acc r => acc + r.portsScanned) 0
    let uniquePorts := sortPortsByNumber (dedupPortsByNumber allOpenPorts)
    { latestResult with openPorts := uniquePorts, portsScanned := totalPortsScanned }

/-- groupKeys lists the distinct `scanId`s of the queried rows.  Go builds a
`map[string][]models.ScanResult` whose iteration order is unspecified; the
embedding determinises it to first-occurrence order, which the final
timestamp sort of `GetScanResults` makes immaterial. -/
def groupKeys (records : List ScanRow) : List String :=
  records.foldl (fun ks r => if r.scanId ∈ ks then ks else ks ++ [r.scanId]) []

/-- getScanResults embeds `Client.GetScanResults` after its DynamoDB query:
non-positive limits default to 10, rows are grouped by `scanId`,
consolidated per group, sorted descending by timestamp and truncated. -/
def getScanResults (records : List ScanRow) (limit : Int) : List ScanRow :=
  let lim : Nat := if limit ≤ 0 then 10 else limit.toNat
  let finalResults :=
    (groupKeys records).map
      (fun k => consolidateGroup (records.filter (fun r => decide (r.scanId = k))))
  (sortResultsDescByTimestamp finalResults).take lim

theorem mem_insertPort (x a : Int) : ∀ (l : List Int), a ∈ insertPort x l ↔ a = x ∨ a ∈ l := by
  intro l
  induction l with
  | nil => simp [insertPort]
  | cons y ys ih =>
    by_cases h1 : x < y
    · simp [insertPort, h1]
    · by_cases h2 : x = y
      · subst h2
        simp [insertPort, h1]
      · simp [insertPort, h1, h2, ih]
        tauto

theorem insertPort_toFinset (x : Int) (l : List Int) :
    (insertPort x l).toFinset = insert x l.toFinset := by
  ext a
  simp [List.mem_toFinset, mem_insertPort]

theorem insertPort_sorted (x : Int) :
    ∀ (l : List Int), l.Sorted (· < ·) → (insertPort x l).Sorted (· < ·) := by
  intro l
  induction l with
  | nil => intro _; simp [insertPort]
  | cons y ys ih =>
    intro hs
    rw [List.sorted_cons] at hs
    obtain ⟨hy, hys⟩ := hs
    by_cases h1 : x < y
    · rw [insertPort, if_pos h1, List.sorted_cons]
      constructor
      · intro b hb
        rcases List.mem_cons.mp hb with hb | hb
        · exact hb ▸ h1
        · exact lt_trans h1 (hy b hb)
      · rw [List.sorted_cons]; exact ⟨hy, hys⟩
    · by_cases h2 : x = y
      · rw [insertPort, if_neg h1, if_pos h2, List.sorted_cons]
        exact ⟨hy, hys⟩
      · rw [insertPort, if_neg h1, if_neg h2, List.sorted_cons]
        constructor
        · intro b hb
          rw [mem_insertPort] at hb
          rcases hb with hb | hb
          · subst hb
            rcases lt_trichotomy b y with h | h | h
            · exact absurd h h1
            · exact absurd h h2
            · exact h
          · exact hy b hb
        · exact ih hys

theorem foldl_insertPort_toFinset :
    ∀ (l acc : List Int),
      (l.foldl (fun a p => insertPort p a) acc).toFinset = acc.toFinset ∪ l.toFinset := by
  intro l
  induction l with
  | nil => intro acc; simp
  | cons x xs ih =>
    intro acc
    simp only [List.foldl_cons, ih, insertPort_toFinset]
    ext a
    simp [List.mem_toFinset]
    try tauto

theorem foldl_insertPort_sorted :
    ∀ (l acc : List Int), acc.Sorted (· < ·) →
      (l.foldl (fun a p => insertPort p a) acc).Sorted (· < ·) := by
  intro l
  induction l with
  | nil => intro acc h; exact h
  | cons x xs ih =>
    intro acc h
    exact ih (insertPort x acc) (insertPort_sorted x acc h)

theorem mergeOpenPorts_toFinset (existing newPorts : List Int) :
    (mergeOpenPorts existing newPorts).toFinset = existing.toFinset ∪ newPorts.toFinset := by
  unfold mergeOpenPorts
  rw [foldl_insertPort_toFinset]
  simp [List.toFinset_append]

theorem mergeOpenPorts_sorted (existing newPorts : List Int) :
    (mergeOpenPorts existing newPorts).Sorted (· < ·) := by
  unfold mergeOpenPorts
  exact foldl_insertPort_sorted _ [] (by simp)

theorem sorted_lt_eq_of_toFinset_eq {l1 l2 : List Int}
    (h1 : l1.Sorted (· < ·)) (h2 : l2.Sorted (· < ·))
    (h : l1.toFinset = l2.toFinset) : l1 = l2 := by
  haveI : IsAntisymm Int (· < ·) := ⟨fun a b ha hb => absurd hb (lt_asymm ha)⟩
  exact List.eq_of_perm_of_sorted
    (List.perm_of_nodup_nodup_toFinset_eq h1.nodup h2.nodup h) h1 h2

theorem mergeOpenPorts_idem (existing newPorts : List Int) :
    mergeOpenPorts (mergeOpenPorts existing newPorts) newPorts =
      mergeOpenPorts existing newPorts := by
  apply sorted_lt_eq_of_toFinset_eq (mergeOpenPorts_sorted _ _) (mergeOpenPorts_sorted _ _)
  rw [mergeOpenPorts_toFinset, mergeOpenPorts_toFinset, Finset.union_assoc, Finset.union_self]

/-- storeOpenPortsSeq is a sequence of `StoreOpenPorts` calls for one IP, as
produced by processing a sequence of batch results. -/
def storeOpenPortsSeq (db : DB) (ip : String) (batches : List (List Int)) (now : String) : DB :=
  batches.foldl (fun d ps => storeOpenPorts d ip ps now) db

theorem storeOpenPorts_openPortSet (db : DB) (ip : String) (ports : List Int) (t : String) :
    openPortSet (storeOpenPorts db ip ports t) ip = openPortSet db ip ∪ ports.toFinset := by
  simp [openPortSet, storeOpenPorts, getOpenPorts, mergeOpenPorts_toFinset]

theorem foldl_union_init_subset :
    ∀ (bs : List (List Int)) (s : Finset Int),
      s ⊆ bs.foldl (fun a b => a ∪ b.toFinset) s := by
  intro bs
  induction bs with
  | nil => intro s; exact Finset.Subset.refl s
  | cons b bs ih =>
    intro s
    exact Finset.Subset.trans Finset.subset_union_left (ih (s ∪ b.toFinset))

theorem foldl_union_mem_subset :
    ∀ (bs : List (List Int)) (s : Finset Int) (b : List Int), b ∈ bs →
      b.toFinset ⊆ bs.foldl (fun a b => a ∪ b.toFinset) s := by
  intro bs
  induction bs with
  | nil => intro s b hb; exact absurd hb (List.not_mem_nil b)
  | cons c cs ih =>
    intro s b hb
    rcases List.mem_cons.mp hb with hb | hb
    · subst hb
      exact Finset.Subset.trans Finset.subset_union_right
        (foldl_union_init_subset cs (s ∪ b.toFinset))
    · exact ih (s ∪ c.toFinset) b hb

theorem storeOpenPortsSeq_openPortSet (ip : String) (t : String) :
    ∀ (batches : List (List Int)) (db : DB),
      openPortSet (storeOpenPortsSeq db ip batches t) ip =
        batches.foldl (fun a b => a ∪ b.toFinset) (openPortSet db ip) := by
  intro batches
  induction batches with
  | nil => intro db; rfl
  | cons b bs ih =>
    intro db
    show openPortSet (storeOpenPortsSeq (storeOpenPorts db ip b t) ip bs t) ip = _
    rw [ih, storeOpenPorts_openPortSet]
    rfl

/-- C1: `StoreOpenPorts` stores exactly the union of the previously stored
open-port set and the new ports; over any sequence of calls the stored set
is monotonically non-decreasing and contains every batch; and at the level
of the stored port set the operation is idempotent and commutative. -/
theorem storeOpenPorts_union_monotone_idem_comm (db : DB) (ip : String)
    (ports p1 p2 : List Int) (t t1 t2 : String) (batches : List (List Int)) :
    openPortSet (storeOpenPorts db ip ports t) ip = openPortSet db ip ∪ ports.toFinset ∧
    openPortSet db ip ⊆ openPortSet (storeOpenPortsSeq db ip batches t) ip ∧
    (∀ b ∈ batches, b.toFinset ⊆ openPortSet (storeOpenPortsSeq db ip batches t) ip) ∧
    openPortSet (storeOpenPorts (storeOpenPorts db ip ports t1) ip ports t2) ip =
      openPortSet (storeOpenPorts db ip ports t1) ip ∧
    openPortSet (storeOpenPorts (storeOpenPorts db ip p1 t1) ip p2 t2) ip =
      openPortSet (storeOpenPorts (storeOpenPorts db ip p2 t1) ip p1 t2) ip := by
  refine ⟨storeOpenPorts_openPortSet db ip ports t, ?_, ?_, ?_, ?_⟩
  · rw [storeOpenPortsSeq_openPortSet]
    exact foldl_union_init_subset batches (openPortSet db ip)
  · intro b hb
    rw [storeOpenPortsSeq_openPortSet]
    exact foldl_union_mem_subset batches (openPortSet db ip) b hb
  · rw [storeOpenPorts_openPortSet, storeOpenPorts_openPortSet,
      Finset.union_assoc, Finset.union_self]
  · rw [storeOpenPorts_openPortSet, storeOpenPorts_openPortSet,
      storeOpenPorts_openPortSet, storeOpenPorts_openPortSet,
      Finset.union_assoc, Finset.union_assoc, Finset.union_comm p1.toFinset]

/-- dbEmpty is the freshly provisioned state: no IPs, schedules, open-port
items, scan results or enrichment rows. -/
def dbEmpty : DB :=
  { ips := fun _ => false, lastScanned := fun _ => "", schedules := [],
    openPorts := fun _ => none, lastUpdated := fun _ => "", results := [],
    enrichment := [] }

/-- Witness for C1: applying the theorem at a concrete state, IP and batch
sequence, discharging the batch-membership hypothesis on `[5]`. -/
theorem storeOpenPorts_union_monotone_idem_comm_witness :
    ([5] : List Int).toFinset ⊆
      openPortSet (storeOpenPortsSeq dbEmpty "1.2.3.4" [[5], [6]] "T") "1.2.3.4" :=
  (storeOpenPorts_union_monotone_idem_comm dbEmpty "1.2.3.4" [80] [1] [2] "T" "T1" "T2"
    [[5], [6]]).2.2.1 [5] (by decide)

theorem sameResultKey_symm {a b : ScanRow} (h : sameResultKey a b) : sameResultKey b a :=
  ⟨h.1.symm, h.2.symm⟩

theorem sameResultKey_trans {a b c : ScanRow}
    (h1 : sameResultKey a b) (h2 : sameResultKey b c) : sameResultKey a c :=
  ⟨h1.1.trans h2.1, h1.2.trans h2.2⟩

theorem sameResultKey_refl (a : ScanRow) : sameResultKey a a := ⟨rfl, rfl⟩

theorem mem_putResult {rows : List ScanRow} {r x : ScanRow}
    (hx : x ∈ putResult rows r) : x = r ∨ x ∈ rows := by
  unfold putResult at hx
  by_cases h : rows.any (fun x => decide (sameResultKey x r)) = true
  · rw [if_pos h] at hx
    obtain ⟨y, hy, hyx⟩ := List.mem_map.mp hx
    by_cases hk : sameResultKey y r
    · rw [if_pos hk] at hyx; exact Or.inl hyx.symm
    · rw [if_neg hk] at hyx; exact Or.inr (hyx ▸ hy)
  · rw [if_neg h] at hx
    rcases List.mem_append.mp hx with hx | hx
    · exact Or.inr hx
    · exact Or.inl (List.mem_singleton.mp hx)

theorem self_mem_putResult (rows : List ScanRow) (r : ScanRow) : r ∈ putResult rows r := by
  unfold putResult
  by_cases h : rows.any (fun x => decide (sameResultKey x r)) = true
  · rw [if_pos h]
    obtain ⟨y, hy, hyk⟩ := List.any_eq_true.mp h
    refine List.mem_map.mpr ⟨y, hy, ?_⟩
    rw [if_pos (of_decide_eq_true hyk)]
  · rw [if_neg h]
    exact List.mem_append.mpr (Or.inr (List.mem_singleton.mpr rfl))

theorem keyed_eq_of_mem_putResult {rows : List ScanRow} {r x : ScanRow}
    (hx : x ∈ putResult rows r) (hk : sameResultKey x r) : x = r := by
  unfold putResult at hx
  by_cases h : rows.any (fun y => decide (sameResultKey y r)) = true
  · rw [if_pos h] at hx
    obtain ⟨y, hy, hyx⟩ := List.mem_map.mp hx
    by_cases hyk : sameResultKey y r
    · rw [if_pos hyk] at hyx; exact hyx.symm
    · rw [if_neg hyk] at hyx
      exact absurd (hyx ▸ hk) hyk
  · rw [if_neg h] at hx
    rcases List.mem_append.mp hx with hx | hx
    · exact absurd (List.any_eq_true.mpr ⟨x, hx, decide_eq_true hk⟩) h
    · exact List.mem_singleton.mp hx

theorem putResult_absorb {rows : List ScanRow} {r : ScanRow}
    (hex : ∃ x ∈ rows, sameResultKey x r) (hall : ∀ x ∈ rows, sameResultKey x r → x = r) :
    putResult rows r = rows := by
  unfold putResult
  obtain ⟨w, hw, hwk⟩ := hex
  rw [if_pos (List.any_eq_true.mpr ⟨w, hw, decide_eq_true hwk⟩)]
  conv_rhs => rw [← List.map_id rows]
  apply List.map_congr_left
  intro x hx
  by_cases hk : sameResultKey x r
  · rw [if_pos hk]
    exact (hall x hx hk).symm
  · rw [if_neg hk]
    rfl

theorem putResult_preserves_keyed_all {rows : List ScanRow} {a f : ScanRow}
    (hall : ∀ x ∈ rows, sameResultKey x a → x = a) (hk : ¬ sameResultKey a f) :
    ∀ x ∈ putResult rows f, sameResultKey x a → x = a := by
  intro x hx hxa
  rcases mem_putResult hx with hx | hx
  · subst hx
    exact absurd (sameResultKey_symm hxa) hk
  · exact hall x hx hxa

theorem putResult_preserves_keyed_ex {rows : List ScanRow} {a f : ScanRow}
    (hex : ∃ x ∈ rows, sameResultKey x a) (hall : ∀ x ∈ rows, sameResultKey x a → x = a)
    (hk : ¬ sameResultKey a f) :
    ∃ x ∈ putResult rows f, sameResultKey x a := by
  obtain ⟨w, hw, hwk⟩ := hex
  have hwa : w = a := hall w hw hwk
  subst hwa
  unfold putResult
  by_cases h : rows.any (fun y => decide (sameResultKey y f)) = true
  · rw [if_pos h]
    refine ⟨w, List.mem_map.mpr ⟨w, hw, ?_⟩, hwk⟩
    rw [if_neg (fun hc => hk (sameResultKey_trans (sameResultKey_symm hwk) hc))]
  · rw [if_neg h]
    exact ⟨w, List.mem_append.mpr (Or.inl hw), hwk⟩

theorem putResult_collapse {rows : List ScanRow} {r1 r2 : ScanRow}
    (hk : sameResultKey r1 r2) :
    putResult (putResult rows r1) r2 = putResult rows r2 := by
  have hiff : ∀ x : ScanRow, sameResultKey x r1 ↔ sameResultKey x r2 :=
    fun x => ⟨fun h => sameResultKey_trans h hk,
      fun h => sameResultKey_trans h (sameResultKey_symm hk)⟩
  by_cases h : rows.any (fun x => decide (sameResultKey x r1)) = true
  · have h2 : rows.any (fun x => decide (sameResultKey x r2)) = true := by
      obtain ⟨y, hy, hyk⟩ := List.any_eq_true.mp h
      exact List.any_eq_true.mpr ⟨y, hy, decide_eq_true ((hiff y).mp (of_decide_eq_true hyk))⟩
    have hmap : putResult rows r1 = rows.map (fun x => if sameResultKey x r1 then r1 else x) := by
      unfold putResult; rw [if_pos h]
    have hany : (rows.map (fun x => if sameResultKey x r1 then r1 else x)).any
        (fun x => decide (sameResultKey x r2)) = true := by
      obtain ⟨y, hy, hyk⟩ := List.any_eq_true.mp h
      refine List.any_eq_true.mpr ⟨r1, ?_, decide_eq_true hk⟩
      exact List.mem_map.mpr ⟨y, hy, by rw [if_pos (of_decide_eq_true hyk)]⟩
    rw [hmap]
    unfold putResult
    rw [if_pos hany, if_pos h2, List.map_map]
    apply List.map_congr_left
    intro x _
    by_cases hx1 : sameResultKey x r1
    · simp only [Function.comp, if_pos hx1, if_pos hk]
      rw [if_pos ((hiff x).mp hx1)]
    · simp only [Function.comp, if_neg hx1, if_neg (fun hc => hx1 ((hiff x).mpr hc))]
  · have h' : ∀ x ∈ rows, ¬ sameResultKey x r1 := by
      intro x hx hc
      exact h (List.any_eq_true.mpr ⟨x, hx, decide_eq_true hc⟩)
    have h2 : ¬ rows.any (fun x => decide (sameResultKey x r2)) = true := by
      rw [List.any_eq_true]
      rintro ⟨x, hx, hxk⟩
      exact h' x hx ((hiff x).mpr (of_decide_eq_true hxk))
    have happ : putResult rows r1 = rows ++ [r1] := by
      unfold putResult
      rw [if_neg h]
    have hany2 : (rows ++ [r1]).any (fun x => decide (sameResultKey x r2)) = true :=
      List.any_eq_true.mpr ⟨r1, List.mem_append.mpr (Or.inr (List.mem_singleton.mpr rfl)),
        decide_eq_true hk⟩
    rw [happ]
    unfold putResult
    rw [if_pos hany2, if_neg h2, List.map_append]
    congr 1
    · conv_rhs => rw [← List.map_id rows]
      apply List.map_congr_left
      intro x hx
      rw [if_neg (fun hc => h' x hx ((hiff x).mpr hc))]
      rfl
    · simp [hk]

theorem putResult_chain (R : List ScanRow) (a f : ScanRow) :
    putResult (putResult (putResult (putResult R a) f) a) f =
      putResult (putResult R a) f := by
  by_cases hk : sameResultKey a f
  · rw [putResult_collapse hk, putResult_collapse (sameResultKey_refl f)]
  · have hallY : ∀ x ∈ putResult (putResult R a) f, sameResultKey x a → x = a :=
      putResult_preserves_keyed_all (fun x hx => keyed_eq_of_mem_putResult hx) hk
    have hexY : ∃ x ∈ putResult (putResult R a) f, sameResultKey x a :=
      putResult_preserves_keyed_ex ⟨a, self_mem_putResult R a, sameResultKey_refl a⟩
        (fun x hx => keyed_eq_of_mem_putResult hx) hk
    rw [putResult_absorb hexY hallY]
    exact putResult_absorb ⟨f, self_mem_putResult _ f, sameResultKey_refl f⟩
      (fun x hx => keyed_eq_of_mem_putResult hx)

theorem DB.extEq {a b : DB} (h1 : a.ips = b.ips) (h2 : a.lastScanned = b.lastScanned)
    (h3 : a.schedules = b.schedules) (h4 : a.openPorts = b.openPorts)
    (h5 : a.lastUpdated = b.lastUpdated) (h6 : a.results = b.results)
    (h7 : a.enrichment = b.enrichment) : a = b := by
  cases a; cases b; simp_all

/-- countFinalSummaries counts the rows of the results table flagged as a
final summary for a given scan ID. -/
def countFinalSummaries (rows : List ScanRow) (scanId : String) : Nat :=
  (rows.filter (fun r => r.isFinalSummary && decide (r.scanId = scanId))).length

/-- bC2 is a one-batch scan result whose only batch is the last one. -/
def bC2 : BatchResult :=
  { ipAddress := "203.0.113.7", scanId := "scan-x",
    openPorts := [{ number := 80, state := "open", latency := 5 }],
    scanDuration := 100, portsScanned := 1000, batchId := 0, totalBatches := 1 }

/-- Counterexample to C2: the final-summary row is keyed by the wall-clock
write timestamp (`timestamp ++ "Z"`), not by a stable key derived from the
scan ID, so redelivering the last batch at a later wall-clock time stores a
second `isFinalSummary = true` row for the same `scanId`. -/
theorem finalSummary_duplicated_on_retry :
    countFinalSummaries
      ((handleResultMessage (handleResultMessage dbEmpty bC2 "T1" "T2") bC2 "T3" "T4").results)
      "scan-x" = 2 := by decide

/-- C2 (amended): result rows are keyed by `(ipAddress, scanTimestamp)`, the
final summary by `(ipAddress, timestamp ++ "Z")`; a redelivered last batch
processed at the same wall-clock timestamps overwrites rather than
duplicates — processing the same message twice at identical write times is
idempotent on the whole store, so at most one final summary per `scanId`
arises among retries sharing the write timestamp. -/
theorem handleResultMessage_idem (db : DB) (b : BatchResult) (t1 t2 : String) :
    handleResultMessage (handleResultMessage db b t1 t2) b t1 t2 =
      handleResultMessage db b t1 t2 := by
  by_cases hn : 0 < (b.openPorts.map (fun p => p.number)).length
  · by_cases hl : b.batchId = b.totalBatches - 1
    · simp only [handleResultMessage, storeScanResult, storeOpenPorts,
        storeFinalScanSummary, getOpenPorts, if_pos hn, if_pos hl]
      refine DB.extEq rfl ?_ rfl ?_ ?_ ?_ rfl
      · funext k
        by_cases hk : k = b.ipAddress <;> simp [hk]
      · funext k
        by_cases hk : k = b.ipAddress <;> simp [hk, mergeOpenPorts_idem]
      · funext k
        by_cases hk : k = b.ipAddress <;> simp [hk]
      · simp only [if_true, Option.getD_some, mergeOpenPorts_idem]
        exact putResult_chain _ _ _
    · simp only [handleResultMessage, storeScanResult, storeOpenPorts,
        getOpenPorts, if_pos hn, if_neg hl]
      refine DB.extEq rfl ?_ rfl ?_ ?_ ?_ rfl
      · funext k
        by_cases hk : k = b.ipAddress <;> simp [hk]
      · funext k
        by_cases hk : k = b.ipAddress <;> simp [hk, mergeOpenPorts_idem]
      · funext k
        by_cases hk : k = b.ipAddress <;> simp [hk]
      · exact putResult_collapse (sameResultKey_refl _)
  · by_cases hl : b.batchId = b.totalBatches - 1
    · simp only [handleResultMessage, storeScanResult, storeOpenPorts,
        storeFinalScanSummary, getOpenPorts, if_neg hn, if_pos hl]
      refine DB.extEq rfl ?_ rfl rfl ?_ ?_ rfl
      · funext k
        by_cases hk : k = b.ipAddress <;> simp [hk]
      · rfl
      · exact putResult_chain _ _ _
    · simp only [handleResultMessage, storeScanResult, storeOpenPorts,
        getOpenPorts, if_neg hn, if_neg hl]
      refine DB.extEq rfl ?_ rfl rfl rfl ?_ rfl
      · funext k
        by_cases hk : k = b.ipAddress <;> simp [hk]
      · exact putResult_collapse (sameResultKey_refl _)

/-- C3: the processor writes a final scan summary exactly when
`batchId = totalBatches - 1`; the summary carries the batch's `scanId`,
`isFinalSummary = true`, and an open-port list whose port-number set is the
complete stored open-port set of the IP read back after this batch's ports
were merged (strategy (b)), one entry per port, each with state `"open"`. -/
theorem handleResultMessage_final_spec (db : DB) (b : BatchResult) (t1 t2 : String)
    (hnofinal : ∀ r ∈ db.results, r.isFinalSummary = true → r.scanId ≠ b.scanId) :
    ((∃ r ∈ (handleResultMessage db b t1 t2).results,
        r.isFinalSummary = true ∧ r.scanId = b.scanId) ↔ b.batchId = b.totalBatches - 1) ∧
    (b.batchId = b.totalBatches - 1 →
      ∃ r ∈ (handleResultMessage db b t1 t2).results,
        r.isFinalSummary = true ∧ r.scanId = b.scanId ∧
        (r.openPorts.map (fun p => p.number)).toFinset =
          openPortSet db b.ipAddress ∪ (b.openPorts.map (fun p => p.number)).toFinset ∧
        ∀ p ∈ r.openPorts, p.state = "open") := by
  by_cases hl : b.batchId = b.totalBatches - 1
  · have hfinal : ∃ r ∈ (handleResultMessage db b t1 t2).results,
        r.isFinalSummary = true ∧ r.scanId = b.scanId ∧
        (r.openPorts.map (fun p => p.number)).toFinset =
          openPortSet db b.ipAddress ∪ (b.openPorts.map (fun p => p.number)).toFinset ∧
        ∀ p ∈ r.openPorts, p.state = "open" := by
      by_cases hn : 0 < (b.openPorts.map (fun p => p.number)).length
      · simp only [handleResultMessage, storeScanResult, storeOpenPorts,
          storeFinalScanSummary, getOpenPorts, if_pos hn, if_pos hl, if_true,
          Option.getD_some]
        refine ⟨_, self_mem_putResult _ _, rfl, rfl, ?_, ?_⟩
        · simp only [List.map_map]
          rw [show ((fun (p : Port) => p.number) ∘
              (fun (p : Port) => Port.mk p.number "open" 1000000) ∘
              fun (n : Int) => Port.mk n "open" 1000000) = id from rfl,
            List.map_id, mergeOpenPorts_toFinset]
          rfl
        · intro p hp
          simp only [List.map_map, List.mem_map] at hp
          obtain ⟨n, _, hn2⟩ := hp
          exact hn2 ▸ rfl
      · have hz : b.openPorts.map (fun p => p.number) = [] :=
          List.length_eq_zero.mp (Nat.eq_zero_of_not_pos hn)
        simp only [handleResultMessage, storeScanResult, storeOpenPorts,
          storeFinalScanSummary, getOpenPorts, if_neg hn, if_pos hl]
        refine ⟨_, self_mem_putResult _ _, rfl, rfl, ?_, ?_⟩
        · simp only [List.map_map]
          rw [show ((fun (p : Port) => p.number) ∘
              (fun (p : Port) => Port.mk p.number "open" 1000000) ∘
              fun (n : Int) => Port.mk n "open" 1000000) = id from rfl,
            List.map_id, hz]
          simp [openPortSet, getOpenPorts]
        · intro p hp
          simp only [List.map_map, List.mem_map] at hp
          obtain ⟨n, _, hn2⟩ := hp
          exact hn2 ▸ rfl
    refine ⟨⟨fun _ => hl, fun _ => ?_⟩, fun _ => hfinal⟩
    obtain ⟨r, hr, h1, h2, _⟩ := hfinal
    exact ⟨r, hr, h1, h2⟩
  · constructor
    · constructor
      · rintro ⟨r, hr, hfin, hsid⟩
        exfalso
        have hform : (handleResultMessage db b t1 t2).results =
            putResult db.results
              { ipAddress := b.ipAddress, scanTimestamp := t1, scanId := b.scanId,
                openPorts := b.openPorts, scanDuration := b.scanDuration,
                portsScanned := b.portsScanned, isFinalSummary := false } := by
          by_cases hn : 0 < (b.openPorts.map (fun p => p.number)).length
          · simp only [handleResultMessage, storeScanResult, storeOpenPorts,
              getOpenPorts, if_pos hn, if_neg hl]
          · simp only [handleResultMessage, storeScanResult, storeOpenPorts,
              getOpenPorts, if_neg hn, if_neg hl]
        rw [hform] at hr
        rcases mem_putResult hr with hr | hr
        · rw [hr] at hfin
          exact Bool.false_ne_true hfin
        · exact hnofinal r hr hfin hsid
      · intro h; exact absurd h hl
    · intro h; exact absurd h hl

/-- bC3 is a concrete last batch (batchId 1 of 2) with one open port. -/
def bC3 : BatchResult :=
  { ipAddress := "198.51.100.9", scanId := "scan-y",
    openPorts := [{ number := 443, state := "open", latency := 7 }],
    scanDuration := 50, portsScanned := 4000, batchId := 1, totalBatches := 2 }

/-- Witness for C3: the claim theorem applied to the empty store and a
concrete last batch, with the no-prior-final-summary hypothesis discharged
by computation. -/
theorem handleResultMessage_final_spec_witness :
    (∀ r ∈ dbEmpty.results, r.isFinalSummary = true → r.scanId ≠ bC3.scanId) ∧
    ((∃ r ∈ (handleResultMessage dbEmpty bC3 "T1" "T2").results,
        r.isFinalSummary = true ∧ r.scanId = bC3.scanId) ↔
      bC3.batchId = bC3.totalBatches - 1) :=
  ⟨by decide, (handleResultMessage_final_spec dbEmpty bC3 "T1" "T2" (by decide)).1⟩

/-- bC5 is a concrete last batch with a non-empty open-port list. -/
def bC5 : BatchResult :=
  { ipAddress := "192.0.2.40", scanId := "scan-z",
    openPorts := [{ number := 22, state := "open", latency := 3 }],
    scanDuration := 10, portsScanned := 100, batchId := 0, totalBatches := 1 }

/-- C5 (violated by the code): processing a last batch yields a final
summary with a non-empty open-port list, yet the processor issues no
enricher invocation at all — `cmd/processor/main.go` contains no Lambda
call, although `template.yaml` configures `ENRICHER_FUNCTION` and an invoke
policy on the processor. -/
theorem processor_never_triggers_enricher :
    (∃ r ∈ (handleResultMessage dbEmpty bC5 "T1" "T2").results,
        r.isFinalSummary = true ∧ r.openPorts ≠ []) ∧
    processorEnricherCalls dbEmpty bC5 "T1" "T2" = [] := by
  exact ⟨by decide, rfl⟩

/-- C6: resolving the `previous_open` port set — in the scheduler's
`ScheduleScan` and in the API's `startScan` alike — yields exactly
`[22, 80, 443, 3389]` when the stored open-port set is empty and exactly
the stored set otherwise. -/
theorem previousOpen_resolution_spec (stored : List Int) :
    (stored = [] →
      schedulerResolvePreviousOpen stored = [22, 80, 443, 3389] ∧
      startScanResolvePreviousOpen false stored = [22, 80, 443, 3389]) ∧
    (stored ≠ [] →
      schedulerResolvePreviousOpen stored = stored ∧
      startScanResolvePreviousOpen false stored = stored) := by
  constructor
  · rintro rfl
    exact ⟨rfl, rfl⟩
  · intro h
    have hl : ¬ stored.length = 0 := fun hc => h (List.length_eq_zero.mp hc)
    constructor
    · simp [schedulerResolvePreviousOpen, hl]
    · simp [startScanResolvePreviousOpen, hl]

/-- Witness for C6: both branches of the claim theorem at concrete stored
sets, hypotheses discharged by computation. -/
theorem previousOpen_resolution_spec_witness :
    schedulerResolvePreviousOpen [] = [22, 80, 443, 3389] ∧
    schedulerResolvePreviousOpen [443, 8080] = [443, 8080] ∧
    startScanResolvePreviousOpen false [443, 8080] = [443, 8080] :=
  ⟨((previousOpen_resolution_spec []).1 rfl).1,
    ((previousOpen_resolution_spec [443, 8080]).2 (by decide)).1,
    ((previousOpen_resolution_spec [443, 8080]).2 (by decide)).2⟩

/-- schedC7 is a concrete disabled daily schedule created at time 0, so its
stored `NextRun` is 86400. -/
def schedC7 : Schedule :=
  addSchedule "192.0.2.1" "daily" "top_100" false "sched-1" 0

/-- Counterexample to C7: enabling a schedule through the status-update
operation does not reset `NextRun` to `now + interval(cadence)` — the
update expression touches only `Enabled` and `UpdatedAt`. -/
theorem enable_does_not_reset_nextRun :
    (updateScheduleStatus schedC7 true 1000).nextRun ≠
      1000 + getScheduleInterval schedC7.scheduleType := by decide

/-- C7 (amended): the enable/disable operation changes only `Enabled` and
`UpdatedAt` and leaves `NextRun` (and `LastRun`) untouched; `NextRun` is set
to `now + interval(cadence)` at creation and again after each dispatch, so
it is always set on every stored schedule. -/
theorem updateScheduleStatus_spec (s : Schedule) (e : Bool) (now : Nat)
    (ip ct ps sid : String) (en : Bool) :
    (updateScheduleStatus s e now).nextRun = s.nextRun ∧
    (updateScheduleStatus s e now).enabled = e ∧
    (updateScheduleStatus s e now).updatedAt = now ∧
    (updateScheduleStatus s e now).lastRun = s.lastRun ∧
    (addSchedule ip ct ps en sid now).nextRun = now + getScheduleInterval ct ∧
    (updateScheduleAfterScan s ct now).nextRun = now + getScheduleInterval ct ∧
    (updateScheduleAfterScan s ct now).lastRun = some now :=
  ⟨rfl, rfl, rfl, rfl, rfl, rfl, rfl⟩

/-- C10: an unrecognised cadence silently resolves to the daily interval of
86400 seconds, so creating or rewriting a schedule with any cadence string
succeeds and stores `NextRun = now + 86400` for unknown cadences; in
particular `NextRun` is strictly after `now` for every cadence string. -/
theorem getScheduleInterval_default_spec (ct ip ps sid : String) (en : Bool)
    (now : Nat) (s : Schedule)
    (h : ¬ ct ∈ (["hourly", "12hour", "daily", "weekly", "monthly"] : List String)) :
    getScheduleInterval ct = 86400 ∧
    (addSchedule ip ct ps en sid now).nextRun = now + 86400 ∧
    (updateSchedule s ct ps en now).nextRun = now + 86400 ∧
    (∀ c : String, now < (addSchedule ip c ps en sid now).nextRun) ∧
    (∀ c : String, now < (updateSchedule s c ps en now).nextRun) := by
  have hint : getScheduleInterval ct = 86400 := by
    simp only [List.mem_cons, List.not_mem_nil, or_false, not_or] at h
    obtain ⟨h1, h2, h3, h4, h5⟩ := h
    simp [getScheduleInterval, h1, h2, h3, h4, h5]
  have hpos : ∀ c : String, 0 < getScheduleInterval c := by
    intro c
    unfold getScheduleInterval
    repeat' split
    all_goals norm_num
  refine ⟨hint, ?_, ?_, ?_, ?_⟩
  · show now + getScheduleInterval ct = now + 86400
    rw [hint]
  · show now + getScheduleInterval ct = now + 86400
    rw [hint]
  · intro c
    exact Nat.lt_add_of_pos_right (hpos c)
  · intro c
    exact Nat.lt_add_of_pos_right (hpos c)

/-- Witness for C10: the claim theorem applied to the unrecognised cadence
string `"fortnightly"`. -/
theorem getScheduleInterval_default_spec_witness :
    getScheduleInterval "fortnightly" = 86400 ∧
    (addSchedule "192.0.2.5" "fortnightly" "top_100" true "sid-2" 500).nextRun = 500 + 86400 :=
  ⟨(getScheduleInterval_default_spec "fortnightly" "192.0.2.5" "top_100" "sid-2" true 500
      schedC7 (by decide)).1,
    (getScheduleInterval_default_spec "fortnightly" "192.0.2.5" "top_100" "sid-2" true 500
      schedC7 (by decide)).2.1⟩

/-- sizesGo computes the chunk lengths of `chunkGo` from the input length
alone. -/
def sizesGo (batchSize : Nat) : Nat → Nat → List Nat
  | 0, _ => []
  | _, 0 => []
  | fuel + 1, n => min batchSize n :: sizesGo batchSize fuel (n - batchSize)

theorem chunkGo_map_length (batchSize : Nat) :
    ∀ (fuel : Nat) (l : List Int),
      (chunkGo batchSize fuel l).map List.length = sizesGo batchSize fuel l.length := by
  intro fuel
  induction fuel with
  | zero => intro l; cases l <;> rfl
  | succ fuel ih =>
    intro l
    cases l with
    | nil => rfl
    | cons x xs =>
      simp only [chunkGo, List.map_cons, List.length_take, ih, List.length_drop]
      rfl

theorem chunkGo_flatten (batchSize : Nat) (hbs : 0 < batchSize) :
    ∀ (fuel : Nat) (l : List Int), l.length ≤ fuel →
      (chunkGo batchSize fuel l).flatten = l := by
  intro fuel
  induction fuel with
  | zero =>
    intro l hl
    rw [Nat.le_zero] at hl
    rw [List.length_eq_zero.mp hl]
    rfl
  | succ fuel ih =>
    intro l hl
    cases l with
    | nil => rfl
    | cons x xs =>
      simp only [chunkGo, List.flatten_cons]
      rw [ih ((x :: xs).drop batchSize)
        (by simp only [List.length_drop, List.length_cons]; simp at hl; omega)]
      exact List.take_append_drop batchSize (x :: xs)

theorem splitIntoBatches_batchSizePos (batchSize : Int) :
    0 < (if batchSize ≤ 0 then 1000 else batchSize.toNat) := by
  split
  · norm_num
  · omega

theorem splitIntoBatches_flatten (ports : List Int) (batchSize : Int) :
    (splitIntoBatches ports batchSize).flatten = ports := by
  unfold splitIntoBatches
  exact chunkGo_flatten _ (splitIntoBatches_batchSizePos batchSize) ports.length ports le_rfl

theorem mkScanTasks_map_ports (sid : String) (total : Nat) :
    ∀ (bs : List (List Int)) (i : Nat),
      (mkScanTasks sid total i bs).map (fun t => t.portsToScan) = bs := by
  intro bs
  induction bs with
  | nil => intro i; rfl
  | cons b rest ih =>
    intro i
    simp [mkScanTasks, ih]

theorem mkScanTasks_map_batchId (sid : String) (total : Nat) :
    ∀ (bs : List (List Int)) (i : Nat),
      (mkScanTasks sid total i bs).map (fun t => t.batchId) = List.range' i bs.length := by
  intro bs
  induction bs with
  | nil => intro i; rfl
  | cons b rest ih =>
    intro i
    simp [mkScanTasks, ih, List.range'_succ]

theorem mkScanTasks_map_total (sid : String) (total : Nat) :
    ∀ (bs : List (List Int)) (i : Nat),
      (mkScanTasks sid total i bs).map (fun t => t.totalBatches) =
        List.replicate bs.length total := by
  intro bs
  induction bs with
  | nil => intro i; rfl
  | cons b rest ih =>
    intro i
    simp [mkScanTasks, ih, List.replicate_succ]

theorem fullRangePorts_length : fullRangePorts.length = 65535 := by
  rw [fullRangePorts, List.length_map, List.length_range]

theorem fullRange_map_length :
    (splitIntoBatches fullRangePorts (scheduleScanBatchSize "full_range")).map List.length =
      List.replicate 13 5000 ++ [535] := by
  have h5 : scheduleScanBatchSize "full_range" = 5000 := rfl
  rw [h5]
  unfold splitIntoBatches
  rw [chunkGo_map_length, fullRangePorts_length]
  decide

/-- Counterexample to C8: the scheduler's batch sizes are 1000 by default
and 5000 for the full-range strategy — not 4000 and 10000 — so the full
65535-port range splits into 14 batches, not 7. -/
theorem fullRange_batching_not_as_claimed :
    scheduleScanBatchSize "full_range" = 5000 ∧
    scheduleScanBatchSize "top_ports" = 1000 ∧
    (splitIntoBatches fullRangePorts (scheduleScanBatchSize "full_range")).length = 14 ∧
    ¬ (splitIntoBatches fullRangePorts (scheduleScanBatchSize "full_range")).length = 7 := by
  have hlen : (splitIntoBatches fullRangePorts (scheduleScanBatchSize "full_range")).length
      = 14 := by
    have h := congrArg List.length fullRange_map_length
    rw [List.length_map] at h
    rw [h]
    decide
  exact ⟨rfl, rfl, hlen, by rw [hlen]; decide⟩

/-- C8 (amended): `ScheduleScan` splits the resolved port list into chunks
of 1000 by default and 5000 for the `full_range` strategy (so the full
65535-port range yields 13 batches of 5000 plus one of 535); batches are
produced in input order — their concatenation is the input — and each
enqueued task carries the 0-based batch index as `batchId` and
`totalBatches` equal to the number of chunks. -/
theorem scheduleScan_batching_spec (portStrategy : String) (ports : List Int) (sid : String) :
    (splitIntoBatches ports (scheduleScanBatchSize portStrategy)).flatten = ports ∧
    (scheduleScanTasks ports portStrategy sid).map (fun t => t.portsToScan) =
      splitIntoBatches ports (scheduleScanBatchSize portStrategy) ∧
    (scheduleScanTasks ports portStrategy sid).map (fun t => t.batchId) =
      List.range (splitIntoBatches ports (scheduleScanBatchSize portStrategy)).length ∧
    (scheduleScanTasks ports portStrategy sid).map (fun t => t.totalBatches) =
      List.replicate (splitIntoBatches ports (scheduleScanBatchSize portStrategy)).length
        (splitIntoBatches ports (scheduleScanBatchSize portStrategy)).length ∧
    scheduleScanBatchSize "full_range" = 5000 ∧
    (¬ portStrategy = "full_range" → scheduleScanBatchSize portStrategy = 1000) ∧
    (splitIntoBatches fullRangePorts (scheduleScanBatchSize "full_range")).map List.length =
      List.replicate 13 5000 ++ [535] := by
  refine ⟨splitIntoBatches_flatten ports _, ?_, ?_, ?_, rfl, ?_, fullRange_map_length⟩
  · exact mkScanTasks_map_ports sid _ _ 0
  · rw [List.range_eq_range']
    exact mkScanTasks_map_batchId sid _ _ 0
  · exact mkScanTasks_map_total sid _ _ 0
  · intro h
    simp [scheduleScanBatchSize, h]

/-- Witness for C8: the claim theorem applied to the `top_ports` strategy
with its non-full-range hypothesis discharged by computation. -/
theorem scheduleScan_batching_spec_witness :
    scheduleScanBatchSize "top_ports" = 1000 :=
  (scheduleScan_batching_spec "top_ports" [1, 2, 3] "scan-w").2.2.2.2.2.1 (by decide)

/-- dbC9 is a store holding one schedule, one open-ports item, one scan
result and one enrichment row, all for the IP 9.9.9.9. -/
def dbC9 : DB :=
  { ips := fun k => decide (k = "9.9.9.9"), lastScanned := fun _ => "",
    schedules := [{
      scheduleId := "s-1",
      ipAddress := "9.9.9.9",
      scheduleType := "daily",
      portSet := "top_100",
      enabled := true,
      createdAt := 0,
      updatedAt := 0,
      lastRun := none,
      nextRun := 86400 }],
    openPorts := fun k => if k = "9.9.9.9" then some [80] else none,
    lastUpdated := fun _ => "",
    results := [{
      ipAddress := "9.9.9.9",
      scanTimestamp := "T1",
      scanId := "scan-a",
      openPorts := [],
      scanDuration := 0,
      portsScanned := 100,
      isFinalSummary := false }],
    enrichment := [{ ipAddress := "9.9.9.9", timestamp := "T2", scanId := "scan-a" }] }

/-- Counterexample to C9: `DeleteIP` never touches the `nexusscan-enrichment`
table, so after deleting the IP its enrichment row is still stored — the
cascade covers only three of the four claimed record categories. -/
theorem deleteIP_does_not_remove_enrichment :
    (deleteIP dbC9 "9.9.9.9").enrichment =
      [{ ipAddress := "9.9.9.9", timestamp := "T2", scanId := "scan-a" }] ∧
    ¬ (deleteIP dbC9 "9.9.9.9").enrichment.filter
        (fun e => decide (e.ipAddress = "9.9.9.9")) = [] := by
  exact ⟨rfl, by decide⟩

/-- C9 (amended): on the success path of the initial IP-row delete, the
cascade removes every schedule of the IP, its open-ports item and every
scan-result row, each category independently and best-effort (failures are
only logged and the operation still returns nil), but enrichment rows are
left untouched. -/
theorem deleteIP_cascade_spec (db : DB) (ip : String) :
    (deleteIP db ip).ips ip = false ∧
    (∀ s ∈ (deleteIP db ip).schedules, s.ipAddress ≠ ip) ∧
    (deleteIP db ip).openPorts ip = none ∧
    (∀ r ∈ (deleteIP db ip).results, r.ipAddress ≠ ip) ∧
    (deleteIP db ip).enrichment = db.enrichment := by
  refine ⟨by simp [deleteIP], ?_, by simp [deleteIP], ?_, rfl⟩
  · intro s hs hip
    simp only [deleteIP, List.mem_filter] at hs
    obtain ⟨hmem, hid⟩ := hs
    have hin : s.scheduleId ∈
        (db.schedules.filter (fun s2 => decide (s2.ipAddress = ip))).map
          (fun s2 => s2.scheduleId) :=
      List.mem_map.mpr ⟨s, List.mem_filter.mpr ⟨hmem, decide_eq_true hip⟩, rfl⟩
    simp only [decide_eq_true_eq] at hid
    exact hid hin
  · intro r hr
    simp only [deleteIP, List.mem_filter, decide_eq_true_eq] at hr
    exact hr.2

/-- Witness for C9: the amended theorem applied at the concrete store. -/
theorem deleteIP_cascade_spec_witness :
    (deleteIP dbC9 "9.9.9.9").openPorts "9.9.9.9" = none :=
  (deleteIP_cascade_spec dbC9 "9.9.9.9").2.2.1

theorem selectSwap_perm (swap : α → α → Bool) :
    ∀ (ys : List α) (x : α),
      (x :: ys).Perm ((selectSwap swap x ys).1 :: (selectSwap swap x ys).2) := by
  intro ys
  induction ys with
  | nil => intro x; exact List.Perm.refl _
  | cons y ys ih =>
    intro x
    by_cases h : swap x y = true
    · simp only [selectSwap, h, if_true]
      exact (List.Perm.cons x (ih y)).trans (List.Perm.swap _ _ _)
    · simp only [selectSwap, h, if_false]
      exact (List.Perm.swap _ _ _).trans
        ((List.Perm.cons y (ih x)).trans (List.Perm.swap _ _ _))

theorem selectSwap_max (swap : α → α → Bool) (R : α → α → Prop)
    (hrefl : ∀ a, R a a) (htrans : ∀ {a b c}, R a b → R b c → R a c)
    (hT : ∀ a b, swap a b = true → R b a) (hF : ∀ a b, swap a b = false → R a b) :
    ∀ (ys : List α) (x : α) (z : α),
      z ∈ (selectSwap swap x ys).1 :: (selectSwap swap x ys).2 →
        R (selectSwap swap x ys).1 z := by
  intro ys
  induction ys with
  | nil =>
    intro x z hz
    rcases List.mem_cons.mp hz with hz | hz
    · exact hz ▸ hrefl _
    · exact absurd hz (List.not_mem_nil z)
  | cons y ys ih =>
    intro x z hz
    by_cases h : swap x y = true
    · simp only [selectSwap, h, if_true] at hz ⊢
      rcases List.mem_cons.mp hz with hz | hz
      · exact hz ▸ hrefl _
      · rcases List.mem_cons.mp hz with hz | hz
        · rw [hz]
          have hy : y ∈ (selectSwap swap y ys).1 :: (selectSwap swap y ys).2 :=
            (selectSwap_perm swap ys y).mem_iff.mp (List.mem_cons_self y ys)
          exact htrans (ih y y hy) (hT x y h)
        · exact ih y z (List.mem_cons_of_mem _ hz)
    · simp only [selectSwap, h, if_false] at hz ⊢
      rcases List.mem_cons.mp hz with hz | hz
      · exact hz ▸ hrefl _
      · rcases List.mem_cons.mp hz with hz | hz
        · rw [hz]
          have hx : x ∈ (selectSwap swap x ys).1 :: (selectSwap swap x ys).2 :=
            (selectSwap_perm swap ys x).mem_iff.mp (List.mem_cons_self x ys)
          exact htrans (ih x x hx) (hF x y (Bool.not_eq_true _ ▸ h))
        · exact ih x z (List.mem_cons_of_mem _ hz)

theorem loopSort_perm (swap : α → α → Bool) :
    ∀ (l : List α), l.Perm (loopSort swap l) := by
  have key : ∀ (n : Nat) (l : List α), l.length ≤ n → l.Perm (loopSort swap l) := by
    intro n
    induction n with
    | zero =>
      intro l hl
      rw [List.length_eq_zero.mp (Nat.le_zero.mp hl), loopSort]
    | succ n ih =>
      intro l hl
      cases l with
      | nil => rw [loopSort]
      | cons x xs =>
        rw [loopSort]
        refine (selectSwap_perm swap xs x).trans (List.Perm.cons _ ?_)
        refine ih _ ?_
        rw [selectSwap_length]
        simp only [List.length_cons] at hl
        omega
  intro l
  exact key l.length l le_rfl

theorem loopSort_sorted (swap : α → α → Bool) (R : α → α → Prop)
    (hrefl : ∀ a, R a a) (htrans : ∀ {a b c}, R a b → R b c → R a c)
    (hT : ∀ a b, swap a b = true → R b a) (hF : ∀ a b, swap a b = false → R a b) :
    ∀ (l : List α), (loopSort swap l).Sorted R := by
  have key : ∀ (n : Nat) (l : List α), l.length ≤ n → (loopSort swap l).Sorted R := by
    intro n
    induction n with
    | zero =>
      intro l hl
      rw [List.length_eq_zero.mp (Nat.le_zero.mp hl), loopSort]
      exact List.sorted_nil
    | succ n ih =>
      intro l hl
      cases l with
      | nil => rw [loopSort]; exact List.sorted_nil
      | cons x xs =>
        rw [loopSort]
        rw [List.sorted_cons]
        have hlen : (selectSwap swap x xs).2.length ≤ n := by
          rw [selectSwap_length]
          simp only [List.length_cons] at hl
          omega
        constructor
        · intro b hb
          have hb2 : b ∈ (selectSwap swap x xs).2 :=
            ((loopSort_perm swap _).symm.mem_iff.mp hb)
          exact selectSwap_max swap R hrefl htrans hT hF xs x b
            (List.mem_cons_of_mem _ hb2)
        · exact ih _ hlen
  intro l
  exact key l.length l le_rfl

theorem emptyString_le (s : String) : ("" : String) ≤ s := by
  refine le_of_not_lt ?_
  intro h
  rw [String.lt_iff_toList_lt] at h
  have hnil : ("" : String).toList = [] := rfl
  rw [hnil] at h
  generalize s.toList = l at h
  cases h

theorem upsertPort_map_number (m : List Port) (p : Port) (n : Int) :
    n ∈ (upsertPort m p).map (fun q => q.number) ↔
      n = p.number ∨ n ∈ m.map (fun q => q.number) := by
  unfold upsertPort
  by_cases h : m.any (fun q => decide (q.number = p.number)) = true
  · rw [if_pos h]
    obtain ⟨w, hw, hwk⟩ := List.any_eq_true.mp h
    have hmapeq : (m.map (fun q => if q.number = p.number then p else q)).map
        (fun q => q.number) = m.map (fun q => q.number) := by
      rw [List.map_map]
      apply List.map_congr_left
      intro q _
      by_cases hq : q.number = p.number
      · simp [Function.comp, hq]
      · simp [Function.comp, hq]
    rw [hmapeq]
    constructor
    · exact Or.inr
    · rintro (rfl | hn)
      · exact List.mem_map.mpr ⟨w, hw, (of_decide_eq_true hwk)⟩
      · exact hn
  · rw [if_neg h]
    rw [List.map_append]
    simp [or_comm]

theorem dedupPorts_aux_mem (n : Int) :
    ∀ (l acc : List Port),
      (n ∈ (l.foldl upsertPort acc).map (fun q => q.number) ↔
        n ∈ acc.map (fun q => q.number) ∨ ∃ r ∈ l, n = r.number) := by
  intro l
  induction l with
  | nil => intro acc; simp
  | cons p ps ih =>
    intro acc
    rw [List.foldl_cons, ih, upsertPort_map_number]
    constructor
    · rintro (h | h)
      · rcases h with h | h
        · exact Or.inr ⟨p, List.mem_cons_self p ps, h⟩
        · exact Or.inl h
      · obtain ⟨r, hr, hn⟩ := h
        exact Or.inr ⟨r, List.mem_cons_of_mem p hr, hn⟩
    · rintro (h | h)
      · exact Or.inl (Or.inr h)
      · obtain ⟨r, hr, hn⟩ := h
        rcases List.mem_cons.mp hr with hr | hr
        · exact Or.inl (Or.inl (hr ▸ hn))
        · exact Or.inr ⟨r, hr, hn⟩

theorem dedupPortsByNumber_mem (l : List Port) (n : Int) :
    n ∈ (dedupPortsByNumber l).map (fun q => q.number) ↔ ∃ r ∈ l, n = r.number := by
  rw [dedupPortsByNumber, dedupPorts_aux_mem]
  simp

theorem upsertPort_nodup (m : List Port) (p : Port)
    (h : (m.map (fun q => q.number)).Nodup) :
    ((upsertPort m p).map (fun q => q.number)).Nodup := by
  unfold upsertPort
  by_cases hany : m.any (fun q => decide (q.number = p.number)) = true
  · rw [if_pos hany]
    have hmapeq : (m.map (fun q => if q.number = p.number then p else q)).map
        (fun q => q.number) = m.map (fun q => q.number) := by
      rw [List.map_map]
      apply List.map_congr_left
      intro q _
      by_cases hq : q.number = p.number
      · simp [Function.comp, hq]
      · simp [Function.comp, hq]
    rw [hmapeq]
    exact h
  · rw [if_neg hany, List.map_append]
    rw [List.nodup_append]
    refine ⟨h, List.nodup_singleton _, ?_⟩
    intro a ha hb
    have hb2 : a = p.number := by simpa using hb
    obtain ⟨q, hq, hqn⟩ := List.mem_map.mp ha
    exact hany (List.any_eq_true.mpr ⟨q, hq, decide_eq_true (by rw [hqn, hb2])⟩)

theorem dedupPorts_aux_nodup :
    ∀ (l acc : List Port), (acc.map (fun q => q.number)).Nodup →
      ((l.foldl upsertPort acc).map (fun q => q.number)).Nodup := by
  intro l
  induction l with
  | nil => intro acc h; exact h
  | cons p ps ih =>
    intro acc h
    exact ih (upsertPort acc p) (upsertPort_nodup acc p h)

theorem dedupPortsByNumber_nodup (l : List Port) :
    ((dedupPortsByNumber l).map (fun q => q.number)).Nodup :=
  dedupPorts_aux_nodup l [] (by simp)

theorem foldl_append_openPorts_mem (x : Port) :
    ∀ (g : List ScanRow) (acc : List Port),
      (x ∈ g.foldl (fun a r => a ++ r.openPorts) acc ↔
        x ∈ acc ∨ ∃ r ∈ g, x ∈ r.openPorts) := by
  intro g
  induction g with
  | nil => intro acc; simp
  | cons r rs ih =>
    intro acc
    rw [List.foldl_cons, ih, List.mem_append]
    constructor
    · rintro (h | h)
      · rcases h with h | h
        · exact Or.inl h
        · exact Or.inr ⟨r, List.mem_cons_self r rs, h⟩
      · obtain ⟨r2, hr2, hx⟩ := h
        exact Or.inr ⟨r2, List.mem_cons_of_mem r hr2, hx⟩
    · rintro (h | h)
      · exact Or.inl (Or.inl h)
      · obtain ⟨r2, hr2, hx⟩ := h
        rcases List.mem_cons.mp hr2 with hr2 | hr2
        · exact Or.inl (Or.inr (hr2 ▸ hx))
        · exact Or.inr ⟨r2, hr2, hx⟩

theorem foldl_add_portsScanned :
    ∀ (g : List ScanRow) (acc : Int),
      g.foldl (fun a r => a + r.portsScanned) acc =
        acc + (g.map (fun r => r.portsScanned)).sum := by
  intro g
  induction g with
  | nil => intro acc; simp
  | cons r rs ih =>
    intro acc
    rw [List.foldl_cons, ih, List.map_cons, List.sum_cons]
    ring

theorem foldl_latest_mem :
    ∀ (g : List ScanRow) (z : ScanRow),
      g.foldl (fun acc r => if acc.scanTimestamp < r.scanTimestamp then r else acc) z
        ∈ z :: g := by
  intro g
  induction g with
  | nil => intro z; exact List.mem_singleton.mpr rfl
  | cons r rs ih =>
    intro z
    rw [List.foldl_cons]
    rcases List.mem_cons.mp (ih (if z.scanTimestamp < r.scanTimestamp then r else z))
      with h | h
    · rw [h]
      by_cases hc : z.scanTimestamp < r.scanTimestamp
      · rw [if_pos hc]
        exact List.mem_cons_of_mem z (List.mem_cons_self r rs)
      · rw [if_neg hc]
        exact List.mem_cons_self z (r :: rs)
    · exact List.mem_cons_of_mem z (List.mem_cons_of_mem r h)

theorem foldl_latest_ge :
    ∀ (g : List ScanRow) (z : ScanRow),
      z.scanTimestamp ≤
        (g.foldl (fun acc r => if acc.scanTimestamp < r.scanTimestamp then r else acc)
          z).scanTimestamp ∧
      ∀ r ∈ g, r.scanTimestamp ≤
        (g.foldl (fun acc r => if acc.scanTimestamp < r.scanTimestamp then r else acc)
          z).scanTimestamp := by
  intro g
  induction g with
  | nil =>
    intro z
    exact ⟨le_refl _, fun r hr => absurd hr (List.not_mem_nil r)⟩
  | cons r rs ih =>
    intro z
    rw [List.foldl_cons]
    set z2 := if z.scanTimestamp < r.scanTimestamp then r else z with hz2
    have hzz : z.scanTimestamp ≤ z2.scanTimestamp := by
      rw [hz2]
      by_cases hc : z.scanTimestamp < r.scanTimestamp
      · rw [if_pos hc]; exact le_of_lt hc
      · rw [if_neg hc]
    have hrz : r.scanTimestamp ≤ z2.scanTimestamp := by
      rw [hz2]
      by_cases hc : z.scanTimestamp < r.scanTimestamp
      · rw [if_pos hc]
      · rw [if_neg hc]; exact le_of_not_lt hc
    obtain ⟨h1, h2⟩ := ih z2
    refine ⟨le_trans hzz h1, ?_⟩
    intro r2 hr2
    rcases List.mem_cons.mp hr2 with hr2 | hr2
    · exact hr2 ▸ le_trans hrz h1
    · exact h2 r2 hr2

theorem mem_groupKeys_aux (k : String) :
    ∀ (records : List ScanRow) (acc : List String),
      (k ∈ records.foldl
          (fun ks r => if r.scanId ∈ ks then ks else ks ++ [r.scanId]) acc ↔
        k ∈ acc ∨ ∃ r ∈ records, r.scanId = k) := by
  intro records
  induction records with
  | nil => intro acc; simp
  | cons r rs ih =>
    intro acc
    rw [List.foldl_cons, ih]
    have hstep : k ∈ (if r.scanId ∈ acc then acc else acc ++ [r.scanId]) ↔
        k ∈ acc ∨ k = r.scanId := by
      by_cases hc : r.scanId ∈ acc
      · rw [if_pos hc]
        constructor
        · exact Or.inl
        · rintro (h | h)
          · exact h
          · exact h ▸ hc
      · rw [if_neg hc, List.mem_append, List.mem_singleton]
    rw [hstep]
    constructor
    · rintro (h | h)
      · rcases h with h | h
        · exact Or.inl h
        · exact Or.inr ⟨r, List.mem_cons_self r rs, h.symm⟩
      · obtain ⟨r2, hr2, hk⟩ := h
        exact Or.inr ⟨r2, List.mem_cons_of_mem r hr2, hk⟩
    · rintro (h | h)
      · exact Or.inl (Or.inl h)
      · obtain ⟨r2, hr2, hk⟩ := h
        rcases List.mem_cons.mp hr2 with hr2 | hr2
        · exact Or.inl (Or.inr (hr2 ▸ hk).symm)
        · exact Or.inr ⟨r2, hr2, hk⟩

theorem mem_groupKeys (records : List ScanRow) (k : String) :
    k ∈ groupKeys records ↔ ∃ r ∈ records, r.scanId = k := by
  rw [groupKeys, mem_groupKeys_aux]
  simp

theorem latestOfGroup_mem (g : List ScanRow) (hne : g ≠ [])
    (hts : ∀ r ∈ g, r.scanTimestamp ≠ "") : latestOfGroup g ∈ g := by
  rcases List.mem_cons.mp (foldl_latest_mem g emptyScanRow) with h | h
  · exfalso
    cases g with
    | nil => exact hne rfl
    | cons r rs =>
      have hle := (foldl_latest_ge (r :: rs) emptyScanRow).2 r (List.mem_cons_self r rs)
      rw [h] at hle
      exact hts r (List.mem_cons_self r rs) (le_antisymm hle (emptyString_le _))
  · exact h

theorem sortResultsDesc_perm (l : List ScanRow) : l.Perm (sortResultsDescByTimestamp l) :=
  loopSort_perm _ l

theorem sortResultsDesc_sorted (l : List ScanRow) :
    (sortResultsDescByTimestamp l).Sorted
      (fun a b => b.scanTimestamp ≤ a.scanTimestamp) := by
  refine loopSort_sorted _ (fun a b => b.scanTimestamp ≤ a.scanTimestamp) ?_ ?_ ?_ ?_ l
  · intro a
    exact le_refl _
  · intro a b c h1 h2
    exact le_trans h2 h1
  · intro a b h
    exact le_of_lt (of_decide_eq_true h)
  · intro a b h
    exact le_of_not_lt (of_decide_eq_false h)

theorem sortPortsByNumber_perm (l : List Port) : l.Perm (sortPortsByNumber l) :=
  loopSort_perm _ l

theorem sortPortsByNumber_sorted (l : List Port) :
    (sortPortsByNumber l).Sorted (fun a b => a.number ≤ b.number) := by
  refine loopSort_sorted _ (fun a b => a.number ≤ b.number) ?_ ?_ ?_ ?_ l
  · intro a
    exact le_refl _
  · intro a b c h1 h2
    exact le_trans h1 h2
  · intro a b h
    exact le_of_lt (of_decide_eq_true h)
  · intro a b h
    exact le_of_not_lt (of_decide_eq_false h)

/-- scanGroup is one `scanId` group of the queried rows, as built by the
`scanIdMap` of `GetScanResults`. -/
def scanGroup (records : List ScanRow) (k : String) : List ScanRow :=
  records.filter (fun r => decide (r.scanId = k))

theorem consolidateGroup_some {g : List ScanRow} {f : ScanRow}
    (hfind : g.find? (fun r => r.isFinalSummary) = some f) :
    consolidateGroup g = f := by
  unfold consolidateGroup
  rw [hfind]

theorem consolidateGroup_none {g : List ScanRow}
    (hfind : g.find? (fun r => r.isFinalSummary) = none) :
    consolidateGroup g =
      { latestOfGroup g with
        openPorts := sortPortsByNumber (dedupPortsByNumber
          (g.foldl (fun acc r => acc ++ r.openPorts) [])),
        portsScanned := g.foldl (fun acc r => acc + r.portsScanned) 0 } := by
  unfold consolidateGroup
  rw [hfind]

/-- C4: for a positive limit, `GetScanResults` groups the queried rows by
`scanId`; a group with a final summary contributes exactly that summary row,
any other group contributes a synthesized row carrying the latest batch's
metadata, the deduplicated union of all batches' open-port numbers and the
summed `portsScanned`; the returned list is sorted descending by timestamp
and truncated to the limit.  (Timestamps are RFC3339 strings, hence
non-empty, which the hypothesis `hts` records.) -/
theorem getScanResults_spec (records : List ScanRow) (limit : Int)
    (hlim : 0 < limit) (hts : ∀ r ∈ records, r.scanTimestamp ≠ "") :
    List.Sorted (fun a b => b.scanTimestamp ≤ a.scanTimestamp)
      (getScanResults records limit) ∧
    (getScanResults records limit).length ≤ limit.toNat ∧
    getScanResults records limit =
      (sortResultsDescByTimestamp
        ((groupKeys records).map (fun k => consolidateGroup (scanGroup records k)))).take
        limit.toNat ∧
    ∀ k ∈ groupKeys records,
      (∀ f, (scanGroup records k).find? (fun r => r.isFinalSummary) = some f →
        consolidateGroup (scanGroup records k) = f ∧ f.isFinalSummary = true ∧
          f ∈ scanGroup records k) ∧
      ((scanGroup records k).find? (fun r => r.isFinalSummary) = none →
        latestOfGroup (scanGroup records k) ∈ scanGroup records k ∧
        (∀ r ∈ scanGroup records k,
          r.scanTimestamp ≤ (latestOfGroup (scanGroup records k)).scanTimestamp) ∧
        (consolidateGroup (scanGroup records k)).ipAddress =
          (latestOfGroup (scanGroup records k)).ipAddress ∧
        (consolidateGroup (scanGroup records k)).scanTimestamp =
          (latestOfGroup (scanGroup records k)).scanTimestamp ∧
        (consolidateGroup (scanGroup records k)).scanId =
          (latestOfGroup (scanGroup records k)).scanId ∧
        (consolidateGroup (scanGroup records k)).scanDuration =
          (latestOfGroup (scanGroup records k)).scanDuration ∧
        (∀ n : Int,
          n ∈ (consolidateGroup (scanGroup records k)).openPorts.map (fun p => p.number) ↔
            ∃ r ∈ scanGroup records k, ∃ p ∈ r.openPorts, n = p.number) ∧
        ((consolidateGroup (scanGroup records k)).openPorts.map (fun p => p.number)).Nodup ∧
        (consolidateGroup (scanGroup records k)).portsScanned =
          ((scanGroup records k).map (fun r => r.portsScanned)).sum) := by
  have hform : getScanResults records limit =
      (sortResultsDescByTimestamp
        ((groupKeys records).map (fun k => consolidateGroup (scanGroup records k)))).take
        limit.toNat := by
    rw [getScanResults]
    rw [if_neg (not_le.mpr hlim)]
    rfl
  refine ⟨?_, ?_, hform, ?_⟩
  · rw [hform]
    exact List.Pairwise.sublist (List.take_sublist _ _) (sortResultsDesc_sorted _)
  · rw [hform]
    exact List.length_take_le _ _
  · intro k hk
    constructor
    · intro f hf
      exact ⟨consolidateGroup_some hf, List.find?_some hf, List.mem_of_find?_eq_some hf⟩
    · intro hnone
      have hne : scanGroup records k ≠ [] := by
        obtain ⟨r, hr, hk2⟩ := (mem_groupKeys records k).mp hk
        intro hc
        have hmem : r ∈ scanGroup records k :=
          List.mem_filter.mpr ⟨hr, decide_eq_true hk2⟩
        rw [hc] at hmem
        exact List.not_mem_nil r hmem
      have hts2 : ∀ r ∈ scanGroup records k, r.scanTimestamp ≠ "" :=
        fun r hr => hts r (List.mem_filter.mp hr).1
      have hcons := consolidateGroup_none hnone
      refine ⟨latestOfGroup_mem _ hne hts2, ?_, ?_, ?_, ?_, ?_, ?_, ?_, ?_⟩
      · intro r hr
        exact (foldl_latest_ge _ emptyScanRow).2 r hr
      · rw [hcons]
      · rw [hcons]
      · rw [hcons]
      · rw [hcons]
      · intro n
        rw [hcons]
        have hperm := ((sortPortsByNumber_perm (dedupPortsByNumber
          ((scanGroup records k).foldl (fun acc r => acc ++ r.openPorts) []))).map
          (fun p => p.number)).mem_iff (a := n)
        show n ∈ (sortPortsByNumber (dedupPortsByNumber _)).map (fun p => p.number) ↔ _
        rw [← hperm, dedupPortsByNumber_mem]
        constructor
        · rintro ⟨q, hq, hn⟩
          rcases (foldl_append_openPorts_mem q _ []).mp hq with h | h
          · exact absurd h (List.not_mem_nil q)
          · obtain ⟨r, hr, hq2⟩ := h
            exact ⟨r, hr, q, hq2, hn⟩
        · rintro ⟨r, hr, q, hq, hn⟩
          exact ⟨q, (foldl_append_openPorts_mem q _ []).mpr (Or.inr ⟨r, hr, hq⟩), hn⟩
      · rw [hcons]
        exact ((sortPortsByNumber_perm _).map _).nodup_iff.mp
          (dedupPortsByNumber_nodup _)
      · rw [hcons]
        show (scanGroup records k).foldl (fun acc r => acc + r.portsScanned) 0 = _
        rw [foldl_add_portsScanned]
        exact zero_add _

/-- recC4 holds two queried rows for one IP: a final summary of one scan and
a lone per-batch row of another scan. -/
def recC4 : List ScanRow :=
  [{ ipAddress := "198.51.100.3",
     scanTimestamp := "2025-01-02T00:00:00ZZ",
     scanId := "scan-s1",
     openPorts := [{ number := 80, state := "open", latency := 1000000 }],
     scanDuration := 9,
     portsScanned := 100,
     isFinalSummary := true },
   { ipAddress := "198.51.100.3",
     scanTimestamp := "2025-01-01T00:00:00Z",
     scanId := "scan-s2",
     openPorts := [{ number := 22, state := "open", latency := 5 },
                   { number := 80, state := "open", latency := 7 }],
     scanDuration := 4,
     portsScanned := 50,
     isFinalSummary := false }]

/-- Witness for C4: the claim theorem applied to a concrete query result
with limit 1, both hypotheses discharged by computation. -/
theorem getScanResults_spec_witness :
    (getScanResults recC4 1).length ≤ (1 : Int).toNat :=
  (getScanResults_spec recC4 1 (by decide) (by decide)).2.1
